import Mathlib

/-!
Verification of the speaker-diarization subsystem of MeetingMinutesAI
(`src/audio_processing/diarize.py`), shallowly embedded in Lean.
Time values are modelled as rationals, the numeric externals
(librosa decoding, scikit-learn k-means fits, silhouette scores) as an
oracle record, and the Python regular expressions as executable
character-list functions with Python's matching semantics.
-/

namespace MMA

/-- The Python whitespace class used by `str.strip` and the regex class `\s`. -/
def isPyWs (c : Char) : Bool :=
  c == ' ' || c == '\t' || c == '\n' || c == '\r' || c == '\x0b' || c == '\x0c'

/-- The regex class `[A-Z]`. -/
def isUpperAZ (c : Char) : Bool := 'A' ≤ c && c ≤ 'Z'

/-- ASCII letters, the regex class `[A-Za-z]`. -/
def isAlphaAZ (c : Char) : Bool :=
  ('A' ≤ c && c ≤ 'Z') || ('a' ≤ c && c ≤ 'z')

/-- The character class `[A-Za-z\.\- ]` shared by the diarization regexes. -/
def isNameChar (c : Char) : Bool := isAlphaAZ c || c == '.' || c == '-' || c == ' '

/-- The regex class `\d`. -/
def isDigitC (c : Char) : Bool := '0' ≤ c && c ≤ '9'

/-- Python `str.strip()` on a character list. -/
def pyStripL (l : List Char) : List Char :=
  ((l.dropWhile isPyWs).reverse.dropWhile isPyWs).reverse

/-- Python `re.sub(r"\s+", " ", s)`: every maximal whitespace run becomes one space. -/
def normWsAux : Bool → List Char → List Char
  | _, [] => []
  | inRun, c :: rest =>
      if isPyWs c then
        if inRun then normWsAux true rest else ' ' :: normWsAux true rest
      else c :: normWsAux false rest

/-- Whitespace-run collapsing, as applied to extracted speaker names. -/
def normWs (l : List Char) : List Char := normWsAux false l

/-- The trailing `(.*)$` of pattern 1, with Python semantics: `.` does not
match a newline and `$` matches at the end or just before a final newline.
Returns the capture of `.*` when the anchor can be satisfied. -/
def dotStarDollar (v : List Char) : Option (List Char) :=
  if v.all (fun c => c != '\n') then some v
  else if v.getLast? == some '\n' && v.dropLast.all (fun c => c != '\n') then
    some v.dropLast
  else none

/-- Python `re.match(r"^([A-Z][A-Za-z\.\- ]\x7b1,30\x7d):\s+(.*)$", txt)`, returning
`(group 1, group 2)`.  Because `:` is not in the bracketed class, the greedy
quantifier admits exactly one viable run length (the maximal run, when it is
at most 30), and the greedy `\s+` admits exactly its maximal run. -/
def pattern1 (l : List Char) : Option (List Char × List Char) :=
  match l with
  | [] => none
  | c :: rest =>
    if isUpperAZ c then
      let run := rest.takeWhile isNameChar
      if 1 ≤ run.length && run.length ≤ 30 then
        match rest.drop run.length with
        | ':' :: u =>
          let w := u.takeWhile isPyWs
          if 1 ≤ w.length then
            match dotStarDollar (u.drop w.length) with
            | some g2 => some (c :: run, g2)
            | none => none
          else none
        | _ => none
      else none
    else none

/-- Prefix matcher for a literal token: returns the remaining input. -/
def stripPre : List Char → List Char → Option (List Char)
  | [], l => some l
  | _, [] => none
  | p :: ps, c :: cs => if p == c then stripPre ps cs else none

/-- First alternative `[A-Z]` then 1 to 30 class characters, from the bracket search
regex's capture group, which must be followed by `]`. -/
def alt1At (t : List Char) : Option (List Char) :=
  match t with
  | c :: r =>
    if isUpperAZ c then
      let run := r.takeWhile isNameChar
      if 1 ≤ run.length && run.length ≤ 30 then
        match r.drop run.length with
        | ']' :: _ => some (c :: run)
        | _ => none
      else none
    else none
  | [] => none

/-- Second alternative `Speaker\s+\d+` of the capture group, followed by `]`. -/
def alt2At (t : List Char) : Option (List Char) :=
  match stripPre "Speaker".toList t with
  | none => none
  | some t1 =>
    let w := t1.takeWhile isPyWs
    if 1 ≤ w.length then
      let t2 := t1.drop w.length
      let d := t2.takeWhile isDigitC
      if 1 ≤ d.length then
        match t2.drop d.length with
        | ']' :: _ => some ("Speaker".toList ++ w ++ d)
        | _ => none
      else none
    else none

/-- The capture-group alternation, leftmost alternative first. -/
def altsAt (t : List Char) : Option (List Char) :=
  (alt1At t).orElse (fun _ => alt2At t)

/-- Backtracking over the greedy `\s+` of the optional `(?:Speaker\s+)?`
prefix: try consuming `w` whitespace characters, largest first. -/
def speakerPrefixTry (t1 : List Char) : ℕ → Option (List Char)
  | 0 => none
  | w + 1 => (altsAt (t1.drop (w + 1))).orElse (fun _ => speakerPrefixTry t1 w)

/-- Match of the full bracket search regex
anchored at the head of the input, returning group 1. -/
def bracketGroupAt (l : List Char) : Option (List Char) :=
  match l with
  | '[' :: t =>
    let viaPre :=
      match stripPre "Speaker".toList t with
      | some t1 => speakerPrefixTry t1 (t1.takeWhile isPyWs).length
      | none => none
    viaPre.orElse (fun _ => altsAt t)
  | _ => none

/-- Python `re.search` for the bracket pattern: leftmost match wins. -/
def bracketSearch : List Char → Option (List Char)
  | [] => none
  | c :: t => (bracketGroupAt (c :: t)).orElse (fun _ => bracketSearch t)

/-- Length of a head-anchored match of the FIRST alternative of the
substitution regex (as in the search regex but with the group parentheses dropped):
note that, unlike in the search regex, the alternation is not parenthesised,
so this alternative ends after the greedy class run, without `\]`. -/
def subAlt1Len (l : List Char) : Option ℕ :=
  match l with
  | '[' :: t =>
    let withPre :=
      match stripPre "Speaker".toList t with
      | some t1 =>
        let w := (t1.takeWhile isPyWs).length
        if 1 ≤ w then
          match t1.drop w with
          | c :: r =>
            if isUpperAZ c then
              let len := (r.takeWhile isNameChar).length
              if 1 ≤ len then some (1 + 7 + w + 1 + min len 30) else none
            else none
          | [] => none
        else none
      | none => none
    withPre.orElse (fun _ =>
      match t with
      | c :: r =>
        if isUpperAZ c then
          let len := (r.takeWhile isNameChar).length
          if 1 ≤ len then some (1 + 1 + min len 30) else none
        else none
      | [] => none)
  | _ => none

/-- Length of a head-anchored match of the SECOND alternative
`Speaker\s+\d+\]` of the substitution regex (no opening bracket). -/
def subAlt2Len (l : List Char) : Option ℕ :=
  match stripPre "Speaker".toList l with
  | some t1 =>
    let w := (t1.takeWhile isPyWs).length
    if 1 ≤ w then
      let t2 := t1.drop w
      let d := (t2.takeWhile isDigitC).length
      if 1 ≤ d then
        match t2.drop d with
        | ']' :: _ => some (7 + w + d + 1)
        | _ => none
      else none
    else none
  | none => none

/-- Head-anchored match length for the substitution regex. -/
def subMatchLen (l : List Char) : Option ℕ :=
  (subAlt1Len l).orElse (fun _ => subAlt2Len l)

/-- The `re.sub` driver: scan left to right, delete every
leftmost non-overlapping match, fuelled by the input length. -/
def bracketSubF : ℕ → List Char → List Char
  | 0, _ => []
  | _ + 1, [] => []
  | f + 1, c :: t =>
    match subMatchLen (c :: t) with
    | some m => bracketSubF f ((c :: t).drop m)
    | none => c :: bracketSubF f t

/-- The bracket-token removal applied to the segment text (pattern 2). -/
def bracketSub (l : List Char) : List Char := bracketSubF l.length l

/-- The name filter of pattern 3: `re.match(r"^[A-Z][A-Za-z\.\- ]+$", s)`. -/
def p3nameOk (pn : List Char) : Bool :=
  match pn with
  | c :: r => isUpperAZ c && 1 ≤ r.length && r.all isNameChar
  | [] => false

/-- Pattern 3: generic colon split with validation of the candidate name. -/
def pattern3 (txt : List Char) : Option (List Char × List Char) :=
  if txt.contains ':' then
    let pre := txt.takeWhile (fun c => c != ':')
    let post := (txt.dropWhile (fun c => c != ':')).tail
    let pn := pyStripL pre
    if 2 < pn.length && pn.length < 40 && p3nameOk pn then
      some (pn, pyStripL post)
    else none
  else none

/-- The TextualSpeakerResolver: patterns 1, 2, 3 in strict priority order,
returning the extracted speaker name and the replacement message text
(both already stripped/normalised exactly as the source does). -/
def extract (txt : List Char) : Option (List Char × List Char) :=
  match pattern1 txt with
  | some (g1, g2) => some (normWs (pyStripL g1), pyStripL g2)
  | none =>
    match bracketSearch txt with
    | some g => some (pyStripL g, pyStripL (bracketSub txt))
    | none => pattern3 txt

/-- A transcript segment with fields start, end and text; `end` is called `stop`.
`text` is `Option` because the source guards `seg.get("text") or ""`. -/
structure Segment where
  start : ℚ
  stop : ℚ
  text : Option String
deriving DecidableEq

/-- An attributed output segment with a speaker field added. -/
structure AttrSeg where
  speaker : String
  start : ℚ
  stop : ℚ
  text : Option String
deriving DecidableEq

/-- A speaker turn produced by the primary (external) diarizer. -/
structure Turn where
  start : ℚ
  stop : ℚ
  speaker : String
deriving DecidableEq

/-- Mutable state of the fallback reconciliation pass: the alias table,
the registry of seen names, the (write-only) speaker counter, and the
last assigned speaker. -/
structure RecState where
  aliasT : List (String × String)
  seen : List String
  counter : ℕ
  lastSpeaker : Option String
deriving DecidableEq

def initState : RecState := ⟨[], [], 1, none⟩

/-- Source line `txt = (seg.get("text") or "").strip()`. -/
def segText (seg : Segment) : List Char := pyStripL (seg.text.getD "").toList

/-- The `default_label` of segment `i`: present only when the cluster default
list is truthy and covers index `i`. -/
def defaultLabelAt (cd : Option (List String)) (i : ℕ) : Option String :=
  match cd with
  | some ds => ds.get? i
  | none => none

/-- Source expression `last_speaker if last_speaker else "Speaker 1"`. -/
def lastOr (st : RecState) : String :=
  match st.lastSpeaker with
  | some l => if l = "" then "Speaker 1" else l
  | none => "Speaker 1"

/-- The `if not sp:` fallback chain of the reconciliation pass. -/
def resolveFalsy (aliasNow : List (String × String)) (st : RecState)
    (dl : Option String) : String :=
  match dl with
  | some d =>
      if d ≠ "" then
        match aliasNow.lookup d with
        | some a => a
        | none => d
      else lastOr st
  | none => lastOr st

/-- Alias-table update on a name extraction: `if default_label:
alias[default_label] = sp` (a Python dict update, modelled by a
lookup-shadowing cons). -/
def aliasUpdate (st : RecState) (dl : Option String) (nmS : String) :
    List (String × String) :=
  match dl with
  | some d => if d ≠ "" then (d, nmS) :: st.aliasT else st.aliasT
  | none => st.aliasT

/-- Source line `sp = alias.get(default_label, default_label)` when a default label
exists, else `None`. -/
def provisionalSp (st : RecState) (dl : Option String) : Option String :=
  match dl with
  | some d => some ((st.aliasT.lookup d).getD d)
  | none => none

/-- The final speaker of a segment from which no name was extracted. -/
def noExtractSp (st : RecState) (dl : Option String) : String :=
  match provisionalSp st dl with
  | some s => if s = "" then resolveFalsy st.aliasT st dl else s
  | none => resolveFalsy st.aliasT st dl

/-- One iteration of the fallback loop over `enumerate(transcript_segments)`,
returning the updated state and the emitted attributed segment. -/
def step (cd : Option (List String)) (st : RecState) (i : ℕ) (seg : Segment) :
    RecState × AttrSeg :=
  let txt0 := segText seg
  let dl := defaultLabelAt cd i
  match extract txt0 with
  | some (nm, t1) =>
      let nmS : String := ⟨nm⟩
      let seen2 := if nmS ∈ st.seen then st.seen else st.seen ++ [nmS]
      let cnt2 := if nmS ∈ st.seen then st.counter else st.counter + 1
      let alias2 := aliasUpdate st dl nmS
      let spF := if nmS = "" then resolveFalsy alias2 st dl else nmS
      (⟨alias2, seen2, cnt2, some spF⟩, ⟨spF, seg.start, seg.stop, some ⟨t1⟩⟩)
  | none =>
      let spF := noExtractSp st dl
      (⟨st.aliasT, st.seen, st.counter, some spF⟩,
       ⟨spF, seg.start, seg.stop, some ⟨txt0⟩⟩)

/-- The fallback reconciliation pass from a given state and start index. -/
def runAux (cd : Option (List String)) : RecState → ℕ → List Segment → List AttrSeg
  | _, _, [] => []
  | st, i, seg :: rest =>
      (step cd st i seg).2 :: runAux cd (step cd st i seg).1 (i + 1) rest

/-- The reconciliation state after processing a list of segments. -/
def stateAfter (cd : Option (List String)) : RecState → ℕ → List Segment → RecState
  | st, _, [] => st
  | st, i, seg :: rest => stateAfter cd (step cd st i seg).1 (i + 1) rest

/-- The whole fallback path of `diarize_audio` given the cluster defaults. -/
def fallbackRun (cd : Option (List String)) (segs : List Segment) : List AttrSeg :=
  runAux cd initState 0 segs

/-- Primary-path alignment: first turn containing the temporal midpoint,
default `"Speaker 1"`. -/
def midAssign (turns : List Turn) (seg : Segment) : String :=
  let mid := (seg.start + seg.stop) / 2
  match turns.find? (fun t => decide (t.start ≤ mid ∧ mid ≤ t.stop)) with
  | some t => t.speaker
  | none => "Speaker 1"

/-- The primary (pyannote) path of `diarize_audio`. -/
def primaryAlign (turns : List Turn) (segs : List Segment) : List AttrSeg :=
  segs.map (fun s => ⟨midAssign turns s, s.start, s.stop, s.text⟩)

/-- External numeric results of `_cluster_segments_by_voice`: whether the
imports and the audio decode succeed, the non-arithmetic part of each
segment's eligibility (sample count, silence, NaN/inf checks), the k-means
labels and silhouette score for each candidate `k` (`none` = the call
raised), and the labels of the forced 2-cluster fallback fit. -/
structure VoiceOracle where
  loadOk : Bool
  segEligible : ℕ → Bool
  kmeansLabels : ℕ → Option (List ℕ)
  silScore : ℕ → Option ℚ
  forcedLabels : Option (List ℕ)

/-- The arithmetic part of segment eligibility: after clamping
(`start = max(0, start)`, `end = max(start + 0.05, end)`), the duration
must not be below 0.2 seconds. -/
def durOk (seg : Segment) : Bool :=
  let s := max 0 seg.start
  let e := max (s + mkRat 1 20) seg.stop
  !(decide (e - s < mkRat 1 5))

/-- The `segment_indices` list: the indices whose features enter clustering. -/
def eligibleIndices (o : VoiceOracle) (segs : List Segment) : List ℕ :=
  (segs.enum.filter (fun p => durOk p.2 && o.segEligible p.1)).map Prod.fst

/-- Running state of the `k` sweep: `(best_labels, best_k)` fused into one
option, and `best_score`. -/
structure SweepSt where
  bestLabels : Option (ℕ × List ℕ)
  bestScore : ℚ
deriving DecidableEq

/-- Initial sweep state: `best_labels = None`, `best_score = -1.0`. -/
def sweepInit : SweepSt := ⟨none, -1⟩

/-- One candidate `k` of the sweep: skip on a raised fit, a degenerate
single-cluster labelling, or a raised score; accept only on
`score > best_score + 0.05`. -/
def sweepStep (o : VoiceOracle) (st : SweepSt) (k : ℕ) : SweepSt :=
  match o.kmeansLabels k with
  | none => st
  | some labels =>
      if labels.dedup.length < 2 then st
      else
        match o.silScore k with
        | none => st
        | some score =>
            if st.bestScore + mkRat 1 20 < score then ⟨some (k, labels), score⟩
            else st

/-- The candidate list `range(2, max_k + 1)`. -/
def sweepKs (maxK : ℕ) : List ℕ := List.range' 2 (maxK - 1)

/-- The whole sweep loop. -/
def runSweep (o : VoiceOracle) (maxK : ℕ) : SweepSt :=
  (sweepKs maxK).foldl (sweepStep o) sweepInit

/-- Choice of `(k, labels)`: the sweep result, else the forced `k = 2`
fit when `min(2, max_k) ≥ 2`, else unavailable. -/
def selectK (o : VoiceOracle) (segs : List Segment) (ms : ℕ) :
    Option (ℕ × List ℕ) :=
  if o.loadOk then
    let n := (eligibleIndices o segs).length
    if n < 2 then none
    else
      let maxK := min ms n
      match (runSweep o maxK).bestLabels with
      | some best => some best
      | none =>
          if min 2 maxK < 2 then none
          else
            match o.forcedLabels with
            | some labels => some (2, labels)
            | none => none
  else none

/-- Forward fill: an unassigned position inherits `last_seen`. -/
def ffill (last : Option String) : List (Option String) → List (Option String)
  | [] => []
  | none :: rest => last :: ffill last rest
  | some s :: rest => some s :: ffill (some s) rest

/-- Backward fill: the forward pass run over the reversed list. -/
def bfill (l : List (Option String)) : List (Option String) :=
  (ffill none l.reverse).reverse

/-- Source line `[d if d else "Speaker 1" for d in defaults]` (Python truthiness:
both `None` and the empty string are replaced). -/
def residualFill (l : List (Option String)) : List String :=
  l.map (fun d =>
    match d with
    | some s => if s = "" then "Speaker 1" else s
    | none => "Speaker 1")

/-- Order of first temporal appearance of the raw cluster ids. -/
def firstAppearanceOrder (pairs : List (ℕ × ℕ)) : List ℕ :=
  pairs.foldl (fun acc p => if p.2 ∈ acc then acc else acc ++ [p.2]) []

/-- The `label_to_name` mapping: the string `Speaker i+1` where `i` is the position in appearance order. -/
def labelName (order : List ℕ) (lb : ℕ) : String :=
  "Speaker " ++ toString (order.indexOf lb + 1)

/-- The sparse default array: `[None] * len(segs)` with the clustered
positions assigned. -/
def assignDefaults (n : ℕ) (pairs : List (ℕ × ℕ)) (order : List ℕ) :
    List (Option String) :=
  pairs.foldl (fun ds p => ds.set p.1 (some (labelName order p.2)))
    (List.replicate n none)

/-- Naming, gap filling and the residual fallback over the chosen labels. -/
def buildDefaults (n : ℕ) (idxs : List ℕ) (labels : List ℕ) : List String :=
  let pairs := idxs.zip labels
  let order := firstAppearanceOrder pairs
  residualFill (bfill (ffill none (assignDefaults n pairs order)))

/-- The whole `_cluster_segments_by_voice`: `None`, or one default label per segment. -/
def clusterSegments (o : VoiceOracle) (segs : List Segment) (ms : ℕ) :
    Option (List String) :=
  match selectK o segs ms with
  | some kl => some (buildDefaults segs.length (eligibleIndices o segs) kl.2)
  | none => none

/-- The top-level `diarize_audio`: the primary path when pyannote is enabled and its
pipeline ran without an exception, otherwise the fallback pass over the
cluster defaults (the source calls the clusterer with `max_speakers = 4`). -/
def diarizeAudio (o : VoiceOracle) (primaryOk : Bool) (turns : List Turn)
    (usePyannote : Bool) (segs : List Segment) : List AttrSeg :=
  if usePyannote && primaryOk then primaryAlign turns segs
  else fallbackRun (clusterSegments o segs 4) segs

/-! ### General lemmas about the reconciliation pass -/

/-- The emitted segment copies the input start time in both branches. -/
lemma step_snd_start (cd : Option (List String)) (st : RecState) (i : ℕ) (seg : Segment) :
    ((step cd st i seg).2).start = seg.start := by
  cases h : extract (segText seg) with
  | none => simp [step, h]
  | some g => cases g with | _ nm t1 => simp [step, h]

/-- The emitted segment copies the input end time in both branches. -/
lemma step_snd_stop (cd : Option (List String)) (st : RecState) (i : ℕ) (seg : Segment) :
    ((step cd st i seg).2).stop = seg.stop := by
  cases h : extract (segText seg) with
  | none => simp [step, h]
  | some g => cases g with | _ nm t1 => simp [step, h]

/-- The emitted text of one step, which does not depend on the pass state. -/
def stepText (seg : Segment) : Option String :=
  match extract (segText seg) with
  | some g => some ⟨g.2⟩
  | none => some ⟨segText seg⟩

lemma step_snd_text (cd : Option (List String)) (st : RecState) (i : ℕ) (seg : Segment) :
    ((step cd st i seg).2).text = stepText seg := by
  cases h : extract (segText seg) with
  | none => simp [step, stepText, h]
  | some g => cases g with | _ nm t1 => simp [step, stepText, h]

lemma runAux_length (cd : Option (List String)) :
    ∀ (segs : List Segment) (st : RecState) (i : ℕ),
      (runAux cd st i segs).length = segs.length := by
  intro segs
  induction segs with
  | nil => intro st i; rfl
  | cons seg rest ih => intro st i; simp [runAux, ih]

lemma runAux_get?_start (cd : Option (List String)) :
    ∀ (segs : List Segment) (st : RecState) (i j : ℕ),
      ((runAux cd st i segs)[j]?).map AttrSeg.start = segs[j]?.map Segment.start := by
  intro segs
  induction segs with
  | nil => intro st i j; rfl
  | cons seg rest ih =>
      intro st i j
      cases j with
      | zero => simp [runAux, step_snd_start]
      | succ j => simp [runAux, ih]

lemma runAux_get?_stop (cd : Option (List String)) :
    ∀ (segs : List Segment) (st : RecState) (i j : ℕ),
      ((runAux cd st i segs)[j]?).map AttrSeg.stop = segs[j]?.map Segment.stop := by
  intro segs
  induction segs with
  | nil => intro st i j; rfl
  | cons seg rest ih =>
      intro st i j
      cases j with
      | zero => simp [runAux, step_snd_stop]
      | succ j => simp [runAux, ih]

lemma runAux_get?_text (cd : Option (List String)) :
    ∀ (segs : List Segment) (st : RecState) (i j : ℕ),
      ((runAux cd st i segs)[j]?).map AttrSeg.text = segs[j]?.map stepText := by
  intro segs
  induction segs with
  | nil => intro st i j; rfl
  | cons seg rest ih =>
      intro st i j
      cases j with
      | zero => simp [runAux, step_snd_text]
      | succ j => simp [runAux, ih]

/-- Python `str.strip()`. -/
def pyStrip (s : String) : String := ⟨pyStripL s.toList⟩

/-- C1.  For every non-empty input segment sequence, `diarize_audio` returns
one output element per input segment, in the same order (here witnessed by
the per-index agreement of the start and end times), on both the primary
path and the fallback path. -/
theorem diarize_preserves_length_and_order (o : VoiceOracle) (pk : Bool)
    (turns : List Turn) (up : Bool) (segs : List Segment) (hne : segs ≠ []) :
    (diarizeAudio o pk turns up segs).length = segs.length ∧
    ∀ j : ℕ,
      (diarizeAudio o pk turns up segs)[j]?.map AttrSeg.start =
        segs[j]?.map Segment.start ∧
      (diarizeAudio o pk turns up segs)[j]?.map AttrSeg.stop =
        segs[j]?.map Segment.stop := by
  unfold diarizeAudio
  split
  · refine ⟨by simp [primaryAlign], ?_⟩
    intro j
    constructor
    · simp [primaryAlign, List.getElem?_map]
      cases segs.get? j <;> rfl
    · simp [primaryAlign, List.getElem?_map]
      cases segs.get? j <;> rfl
  · exact ⟨runAux_length _ _ _ _,
      fun j => ⟨runAux_get?_start _ _ _ _ _, runAux_get?_stop _ _ _ _ _⟩⟩

theorem diarize_preserves_length_and_order_witness :
    ([⟨0, 1, some "hi"⟩] : List Segment) ≠ [] ∧
    (diarizeAudio ⟨false, fun _ => true, fun _ => none, fun _ => none, none⟩ true []
        true [⟨0, 1, some "hi"⟩]).length = 1 :=
  ⟨by simp,
    (diarize_preserves_length_and_order
      ⟨false, fun _ => true, fun _ => none, fun _ => none, none⟩ true [] true
      [⟨0, 1, some "hi"⟩] (by simp)).1⟩

/-- C10.  On the fallback path, a segment from which no pattern extracts a
name keeps its input text stripped of leading and trailing whitespace (an
absent text first becomes the empty string). -/
theorem fallback_text_stripped (cd : Option (List String)) (segs : List Segment)
    (j : ℕ) (seg : Segment) (hj : segs[j]? = some seg)
    (hnx : extract (segText seg) = none) :
    (fallbackRun cd segs)[j]?.map AttrSeg.text =
      some (some (pyStrip (seg.text.getD ""))) := by
  have h := runAux_get?_text cd segs initState 0 j
  rw [hj] at h
  unfold fallbackRun
  rw [h]
  simp [stepText, hnx]
  rfl

/-- Evaluating C10's statement: the output text is the stripped input text,
which is not byte-for-byte the input text. -/
theorem fallback_text_stripped_witness :
    (fallbackRun none [⟨0, 1, some " hi "⟩])[0]?.map AttrSeg.text =
      some (some "hi") ∧ some (" hi " : String) ≠ some ("hi" : String) :=
  ⟨by
    have h := fallback_text_stripped none [⟨0, 1, some " hi "⟩] 0 ⟨0, 1, some " hi "⟩
      rfl (by decide)
    rw [h]
    rfl,
   by decide⟩

/-! ### GapFiller -/

/-- The label remembered by a forward scan: the last assigned entry of the
scanned prefix, seeded with `a`. -/
def lastSomeAux (a : Option String) (l : List (Option String)) : Option String :=
  l.foldl (fun acc o => match o with | some s => some s | none => acc) a

lemma ffill_length :
    ∀ (l : List (Option String)) (last : Option String),
      (ffill last l).length = l.length := by
  intro l
  induction l with
  | nil => intro last; rfl
  | cons d rest ih => intro last; cases d <;> simp [ffill, ih]

lemma ffill_get? :
    ∀ (l : List (Option String)) (last : Option String) (i : ℕ), i < l.length →
      (ffill last l)[i]? = some (lastSomeAux last (l.take (i + 1))) := by
  intro l
  induction l with
  | nil => intro last i h; simp at h
  | cons d rest ih =>
      intro last i h
      cases d with
      | none =>
          cases i with
          | zero => simp [ffill, lastSomeAux]
          | succ i =>
              have hi : i < rest.length := by simpa using h
              show (last :: ffill last rest)[i + 1]? = _
              rw [List.getElem?_cons_succ, ih last i hi]
              rfl
      | some s =>
          cases i with
          | zero => simp [ffill, lastSomeAux]
          | succ i =>
              have hi : i < rest.length := by simpa using h
              show (some s :: ffill (some s) rest)[i + 1]? = _
              rw [List.getElem?_cons_succ, ih (some s) i hi]
              rfl

lemma lastSomeAux_reverse :
    ∀ l : List (Option String), lastSomeAux none l.reverse = l.findSome? id := by
  intro l
  induction l with
  | nil => rfl
  | cons d rest ih =>
      rw [List.reverse_cons]
      unfold lastSomeAux
      rw [List.foldl_append]
      cases d with
      | some s => rfl
      | none => exact ih

lemma bfill_get? (l : List (Option String)) (i : ℕ) (h : i < l.length) :
    (bfill l)[i]? = some ((l.drop i).findSome? id) := by
  unfold bfill
  have hlen : (ffill none l.reverse).length = l.length := by
    rw [ffill_length, List.length_reverse]
  have hi : i < (ffill none l.reverse).length := by rw [hlen]; exact h
  rw [List.getElem?_reverse (by rw [hlen]; exact h)]
  rw [hlen]
  have hk : l.length - 1 - i < l.reverse.length := by
    rw [List.length_reverse]; omega
  rw [ffill_get? l.reverse none (l.length - 1 - i) hk]
  have h1 : l.length - 1 - i + 1 = l.length - i := by omega
  have h2 : l.reverse.take (l.length - i) = (l.drop i).reverse := by
    rw [List.reverse_drop]
  rw [h1, h2, lastSomeAux_reverse]

lemma residualFill_get? (l : List (Option String)) (i : ℕ) :
    (residualFill l)[i]? = l[i]?.map (fun d =>
      match d with
      | some s => if s = "" then "Speaker 1" else s
      | none => "Speaker 1") := by
  simp [residualFill, List.getElem?_map]

lemma ffill_mem_isSome :
    ∀ (l : List (Option String)) (last : Option String), last.isSome = true →
      ∀ y ∈ ffill last l, y.isSome = true := by
  intro l
  induction l with
  | nil => intro last h y hy; simp [ffill] at hy
  | cons d rest ih =>
      intro last h y hy
      cases d with
      | none =>
          simp only [ffill, List.mem_cons] at hy
          rcases hy with rfl | hy
          · exact h
          · exact ih last h y hy
      | some s =>
          simp only [ffill, List.mem_cons] at hy
          rcases hy with rfl | hy
          · rfl
          · exact ih (some s) rfl y hy

lemma getLast?_cons_ne {α : Type} (x : α) (X : List α) (h : X ≠ []) :
    (x :: X).getLast? = X.getLast? := by
  cases X with
  | nil => exact absurd rfl h
  | cons y t => simp [List.getLast?_cons_cons]

lemma ffill_getLast :
    ∀ (l : List (Option String)) (last : Option String),
      (last.isSome = true ∨ ∃ a, some a ∈ l) → l ≠ [] →
      ∃ b, (ffill last l).getLast? = some (some b) := by
  intro l
  induction l with
  | nil => intro last h hne; exact absurd rfl hne
  | cons d rest ih =>
      intro last h hne
      cases d with
      | some s =>
          cases hr : rest with
          | nil => exact ⟨s, rfl⟩
          | cons d2 rest2 =>
              subst hr
              have hfne : ffill (some s) (d2 :: rest2) ≠ [] := by
                intro h0
                have hlen := ffill_length (d2 :: rest2) (some s)
                rw [h0] at hlen
                simp at hlen
              have hstep : (ffill last (some s :: d2 :: rest2)).getLast? =
                  (ffill (some s) (d2 :: rest2)).getLast? := by
                show (some s :: ffill (some s) (d2 :: rest2)).getLast? = _
                exact getLast?_cons_ne _ _ hfne
              rw [hstep]
              exact ih (some s) (Or.inl rfl) (by simp)
      | none =>
          cases hr : rest with
          | nil =>
              subst hr
              rcases h with h | ⟨a, ha⟩
              · obtain ⟨b, rfl⟩ := Option.isSome_iff_exists.mp h
                exact ⟨b, rfl⟩
              · simp at ha
          | cons d2 rest2 =>
              subst hr
              have hfne : ffill last (d2 :: rest2) ≠ [] := by
                intro h0
                have hlen := ffill_length (d2 :: rest2) last
                rw [h0] at hlen
                simp at hlen
              have hstep : (ffill last (none :: d2 :: rest2)).getLast? =
                  (ffill last (d2 :: rest2)).getLast? := by
                show (last :: ffill last (d2 :: rest2)).getLast? = _
                exact getLast?_cons_ne _ _ hfne
              rw [hstep]
              refine ih last ?_ (by simp)
              rcases h with h | ⟨a, ha⟩
              · exact Or.inl h
              · rcases List.mem_cons.mp ha with h1 | h1
                · simp at h1
                · exact Or.inr ⟨a, h1⟩

lemma some_mem_ffill :
    ∀ (l : List (Option String)) (last : Option String) (a : String),
      some a ∈ l → some a ∈ ffill last l := by
  intro l
  induction l with
  | nil => intro last a ha; simp at ha
  | cons d rest ih =>
      intro last a ha
      rcases List.mem_cons.mp ha with hb | hb
      · cases d with
        | none => simp at hb
        | some s =>
            show some a ∈ some s :: ffill (some s) rest
            rw [hb]
            exact List.mem_cons_self _ _
      · cases d with
        | none =>
            show some a ∈ last :: ffill last rest
            exact List.mem_cons_of_mem _ (ih last a hb)
        | some s =>
            show some a ∈ some s :: ffill (some s) rest
            exact List.mem_cons_of_mem _ (ih (some s) a hb)

lemma fill_covers (l : List (Option String)) (h : ∃ x ∈ l, x.isSome = true) :
    ∀ y ∈ bfill (ffill none l), y.isSome = true := by
  obtain ⟨x, hx, hs⟩ := h
  obtain ⟨a, rfl⟩ := Option.isSome_iff_exists.mp hs
  have hne : l ≠ [] := by rintro rfl; simp at hx
  obtain ⟨b, hb⟩ := ffill_getLast l none (Or.inr ⟨a, hx⟩) hne
  have hrev : (ffill none l).reverse.head? = some (some b) := by
    rw [List.head?_reverse]; exact hb
  cases hXr : (ffill none l).reverse with
  | nil => rw [hXr] at hrev; simp at hrev
  | cons y t =>
      rw [hXr] at hrev
      simp only [List.head?_cons, Option.some.injEq] at hrev
      subst hrev
      intro z hz
      unfold bfill at hz
      rw [hXr] at hz
      rw [List.mem_reverse] at hz
      have hz2 : z ∈ some b :: ffill (some b) t := hz
      simp only [List.mem_cons] at hz2
      rcases hz2 with rfl | hz2
      · rfl
      · exact ffill_mem_isSome t (some b) rfl z hz2

/-- C5.  GapFiller forward-fills (an unassigned position inherits the last
assigned label of its prefix), then backward-fills (a still-unassigned
position inherits the first assigned label of its suffix), then replaces any
remaining unassigned position by `"Speaker 1"`; and whenever at least one
position was assigned, no position is unassigned after the two fills. -/
theorem gap_fill_total_coverage :
    (∀ (l : List (Option String)) (last : Option String) (i : ℕ), i < l.length →
        (ffill last l)[i]? = some (lastSomeAux last (l.take (i + 1)))) ∧
    (∀ (l : List (Option String)) (i : ℕ), i < l.length →
        (bfill l)[i]? = some ((l.drop i).findSome? id)) ∧
    (∀ (l : List (Option String)) (i : ℕ),
        (residualFill l)[i]? = l[i]?.map (fun d =>
          match d with
          | some s => if s = "" then "Speaker 1" else s
          | none => "Speaker 1")) ∧
    (∀ l : List (Option String), (∃ x ∈ l, x.isSome = true) →
        ∀ y ∈ bfill (ffill none l), y.isSome = true) :=
  ⟨ffill_get?, bfill_get?, residualFill_get?, fill_covers⟩

theorem gap_fill_total_coverage_witness :
    (ffill none [none, some "Speaker 1", none])[2]? = some (some "Speaker 1") ∧
    (bfill [none, some "Speaker 1"])[0]? = some (some "Speaker 1") ∧
    ((bfill (ffill none [none, some "Speaker 2", none])).headD none).isSome = true :=
  ⟨by
    rw [gap_fill_total_coverage.1 [none, some "Speaker 1", none] none 2 (by simp)]
    rfl,
   by
    rw [gap_fill_total_coverage.2.1 [none, some "Speaker 1"] 0 (by simp)]
    rfl,
   gap_fill_total_coverage.2.2.2 [none, some "Speaker 2", none]
     ⟨some "Speaker 2", by simp, rfl⟩ _ (by decide)⟩

/-! ### ClusterSelector sweep -/

lemma sweepStep_eq_or (o : VoiceOracle) (st : SweepSt) (k : ℕ) :
    sweepStep o st k = st ∨
    ∃ labels score, sweepStep o st k = ⟨some (k, labels), score⟩ := by
  unfold sweepStep
  cases hk : o.kmeansLabels k with
  | none => left; trivial
  | some labels =>
      by_cases hd : labels.dedup.length < 2
      · simp only [if_pos hd]
        left
        trivial
      · simp only [if_neg hd]
        cases hs : o.silScore k with
        | none => left; trivial
        | some score =>
            by_cases hm : st.bestScore + mkRat 1 20 < score
            · simp only [if_pos hm]
              right
              exact ⟨labels, score, rfl⟩
            · simp only [if_neg hm]
              left
              trivial

lemma sweepStep_no_update (o : VoiceOracle) (st : SweepSt) (k : ℕ)
    (h : ∀ labels score, o.kmeansLabels k = some labels →
      o.silScore k = some score → ¬labels.dedup.length < 2 →
      score ≤ st.bestScore + mkRat 1 20) :
    sweepStep o st k = st := by
  unfold sweepStep
  cases hk : o.kmeansLabels k with
  | none => rfl
  | some labels =>
      by_cases hd : labels.dedup.length < 2
      · simp only [if_pos hd]
      · simp only [if_neg hd]
        cases hs : o.silScore k with
        | none => rfl
        | some score =>
            simp only [if_neg (not_lt.mpr (h labels score hk hs hd))]

lemma sweepStep_update (o : VoiceOracle) (st : SweepSt) (k : ℕ)
    (labels : List ℕ) (score : ℚ)
    (hk : o.kmeansLabels k = some labels) (hd : ¬labels.dedup.length < 2)
    (hs : o.silScore k = some score)
    (hm : st.bestScore + mkRat 1 20 < score) :
    sweepStep o st k = ⟨some (k, labels), score⟩ := by
  unfold sweepStep
  simp only [hk]
  rw [if_neg hd]
  simp only [hs]
  rw [if_pos hm]

lemma sweep_fold_no_update (o : VoiceOracle) :
    ∀ (ks : List ℕ) (st : SweepSt),
      (∀ k ∈ ks, ∀ labels score, o.kmeansLabels k = some labels →
          o.silScore k = some score → ¬labels.dedup.length < 2 →
          score ≤ st.bestScore + mkRat 1 20) →
      ks.foldl (sweepStep o) st = st := by
  intro ks
  induction ks with
  | nil => intro st h; rfl
  | cons k rest ih =>
      intro st h
      have h1 : sweepStep o st k = st :=
        sweepStep_no_update o st k
          (fun labels score hk hs hd =>
            h k (List.mem_cons_self _ _) labels score hk hs hd)
      show rest.foldl (sweepStep o) (sweepStep o st k) = st
      rw [h1]
      exact ih st (fun k2 hk2 => h k2 (List.mem_cons_of_mem _ hk2))

lemma sweep_fold_mem (o : VoiceOracle) :
    ∀ (ks : List ℕ) (st : SweepSt) (k : ℕ) (l : List ℕ),
      (ks.foldl (sweepStep o) st).bestLabels = some (k, l) →
      st.bestLabels = some (k, l) ∨ k ∈ ks := by
  intro ks
  induction ks with
  | nil => intro st k l h; exact Or.inl h
  | cons k0 rest ih =>
      intro st k l h
      rcases ih (sweepStep o st k0) k l h with h2 | h2
      · rcases sweepStep_eq_or o st k0 with he | ⟨labels, score, he⟩
        · rw [he] at h2
          exact Or.inl h2
        · rw [he] at h2
          have hkk : k0 = k := by
            have h3 : some (k0, labels) = some (k, l) := h2
            exact (Prod.mk.injEq _ _ _ _ ▸ Option.some.inj h3).1
          exact Or.inr (hkk ▸ List.mem_cons_self _ _)
      · exact Or.inr (List.mem_cons_of_mem _ h2)

lemma mem_sweepKs (maxK k : ℕ) : k ∈ sweepKs maxK ↔ 2 ≤ k ∧ k ≤ maxK := by
  unfold sweepKs
  rw [List.mem_range'_1]
  omega

/-- C3.  The sweep enumerates candidate cluster counts `k` from 2 up to
`min(max_speakers, eligible segments)` in increasing order, starts from the
sentinel score `-1.0` (at or below every valid silhouette score), accepts a
candidate only when its score strictly exceeds the running best plus `0.05`,
never lets a candidate scoring at most `best + 0.05` displace the running
best, and always lets a candidate scoring more than `best + 0.05` displace
it. -/
theorem cluster_sweep_margin_selection (o : VoiceOracle) (ms n : ℕ) :
    (List.Chain' (· < ·) (sweepKs (min ms n)) ∧
      ∀ k, k ∈ sweepKs (min ms n) ↔ 2 ≤ k ∧ k ≤ min ms n) ∧
    (sweepInit.bestScore = -1 ∧
      ∀ s : ℚ, -1 ≤ s → s ≤ 1 → sweepInit.bestScore ≤ s) ∧
    (∀ (st : SweepSt) (k : ℕ) (labels : List ℕ) (score : ℚ),
        o.kmeansLabels k = some labels → ¬labels.dedup.length < 2 →
        o.silScore k = some score →
        (st.bestScore + mkRat 1 20 < score →
          sweepStep o st k = ⟨some (k, labels), score⟩) ∧
        (¬(st.bestScore + mkRat 1 20 < score) → sweepStep o st k = st)) ∧
    (∀ (st : SweepSt) (ks : List ℕ),
        (∀ k ∈ ks, ∀ labels score, o.kmeansLabels k = some labels →
            o.silScore k = some score → ¬labels.dedup.length < 2 →
            score ≤ st.bestScore + mkRat 1 20) →
        ks.foldl (sweepStep o) st = st) ∧
    (∀ (st : SweepSt) (ks1 ks2 : List ℕ) (k : ℕ) (labels : List ℕ) (score : ℚ),
        (∀ j ∈ ks1, ∀ labels2 score2, o.kmeansLabels j = some labels2 →
            o.silScore j = some score2 → ¬labels2.dedup.length < 2 →
            score2 ≤ st.bestScore + mkRat 1 20) →
        o.kmeansLabels k = some labels → ¬labels.dedup.length < 2 →
        o.silScore k = some score → st.bestScore + mkRat 1 20 < score →
        (ks1 ++ k :: ks2).foldl (sweepStep o) st =
          ks2.foldl (sweepStep o) ⟨some (k, labels), score⟩) := by
  refine ⟨⟨?_, fun k => mem_sweepKs _ k⟩, ⟨rfl, fun s h1 _ => h1⟩, ?_, ?_, ?_⟩
  · exact List.chain'_iff_pairwise.mpr (List.pairwise_lt_range' _ _)
  · intro st k labels score hk hd hs
    refine ⟨fun hm => sweepStep_update o st k labels score hk hd hs hm, fun hm => ?_⟩
    refine sweepStep_no_update o st k ?_
    intro l2 s2 hk2 hs2 _
    have hl2 : l2 = labels := by
      rw [hk] at hk2
      exact (Option.some.inj hk2).symm
    have hs2e : s2 = score := by
      rw [hs] at hs2
      exact (Option.some.inj hs2).symm
    rw [hs2e]
    exact le_of_not_lt hm
  · exact fun st ks h => sweep_fold_no_update o ks st h
  · intro st ks1 ks2 k labels score h1 hk hd hs hm
    rw [List.foldl_append, sweep_fold_no_update o ks1 st h1]
    show (k :: ks2).foldl (sweepStep o) st = _
    rw [List.foldl_cons, sweepStep_update o st k labels score hk hd hs hm]

theorem cluster_sweep_margin_selection_witness :
    sweepStep
        (⟨true, fun _ => true, fun _ => some [0, 1],
          fun _ => some (mkRat 3 10), none⟩ : VoiceOracle)
        sweepInit 2 = ⟨some (2, [0, 1]), mkRat 3 10⟩ :=
  ((cluster_sweep_margin_selection
      (⟨true, fun _ => true, fun _ => some [0, 1],
        fun _ => some (mkRat 3 10), none⟩ : VoiceOracle) 4 2).2.2.1
    sweepInit 2 [0, 1] (mkRat 3 10) rfl (by decide) rfl).1
    (by with_unfolding_all decide)

/-- C6.  When clustering succeeds the chosen `k` lies between 2 and
`min(max_speakers, eligible segment count)`; when the sweep accepts nothing
a forced `k = 2` fit (no quality gate) is attempted as soon as at least two
eligible segments exist; with fewer than two eligible segments, or with an
unreadable audio source, clustering is unavailable. -/
theorem cluster_count_bounds (o : VoiceOracle) (segs : List Segment) (ms : ℕ)
    (hms : 2 ≤ ms) :
    (∀ k labels, selectK o segs ms = some (k, labels) →
        2 ≤ k ∧ k ≤ min ms (eligibleIndices o segs).length) ∧
    (o.loadOk = true → 2 ≤ (eligibleIndices o segs).length →
        (runSweep o (min ms (eligibleIndices o segs).length)).bestLabels = none →
        selectK o segs ms = o.forcedLabels.map (fun labels => (2, labels))) ∧
    ((eligibleIndices o segs).length < 2 → clusterSegments o segs ms = none) ∧
    (o.loadOk = false → clusterSegments o segs ms = none) := by
  refine ⟨?_, ?_, ?_, ?_⟩
  · intro k labels h
    unfold selectK at h
    by_cases hl : o.loadOk = true
    · rw [if_pos hl] at h
      by_cases hn : (eligibleIndices o segs).length < 2
      · rw [if_pos hn] at h
        simp at h
      · rw [if_neg hn] at h
        cases hb : (runSweep o (min ms (eligibleIndices o segs).length)).bestLabels with
        | some best =>
            simp only [hb] at h
            have hbl := Option.some.inj h
            rcases sweep_fold_mem o (sweepKs (min ms (eligibleIndices o segs).length))
                sweepInit k labels (by rw [show (sweepKs _).foldl (sweepStep o) sweepInit =
                  runSweep o (min ms (eligibleIndices o segs).length) from rfl, hb, hbl]) with
              hc | hc
            · simp [sweepInit] at hc
            · exact (mem_sweepKs _ k).mp hc
        | none =>
            simp only [hb] at h
            by_cases hmin : min 2 (min ms (eligibleIndices o segs).length) < 2
            · rw [if_pos hmin] at h
              simp at h
            · rw [if_neg hmin] at h
              cases hf : o.forcedLabels with
              | none => rw [hf] at h; simp at h
              | some fl =>
                  rw [hf] at h
                  have := Option.some.inj h
                  have hk2 : k = 2 := by
                    have := congrArg Prod.fst this
                    simpa using this.symm
                  subst hk2
                  exact ⟨le_refl 2, by omega⟩
    · rw [if_neg hl] at h
      simp at h
  · intro hl hn2 hsw
    unfold selectK
    rw [if_pos hl, if_neg (by omega : ¬(eligibleIndices o segs).length < 2)]
    simp only [hsw]
    rw [if_neg (by omega : ¬ min 2 (min ms (eligibleIndices o segs).length) < 2)]
    cases o.forcedLabels <;> rfl
  · intro h3
    unfold clusterSegments
    have hsel : selectK o segs ms = none := by
      unfold selectK
      by_cases hl : o.loadOk = true
      · rw [if_pos hl, if_pos h3]
      · rw [if_neg hl]
    rw [hsel]
  · intro hl
    unfold clusterSegments
    have hsel : selectK o segs ms = none := by
      unfold selectK
      rw [if_neg (by simp [hl])]
    rw [hsel]

theorem cluster_count_bounds_witness :
    2 ≤ 2 ∧
    2 ≤ min 4 (eligibleIndices
        (⟨true, fun _ => true, fun _ => none, fun _ => none,
          some [0, 1]⟩ : VoiceOracle) [⟨0, 1, none⟩, ⟨2, 3, none⟩]).length :=
  (cluster_count_bounds
      (⟨true, fun _ => true, fun _ => none, fun _ => none,
        some [0, 1]⟩ : VoiceOracle) [⟨0, 1, none⟩, ⟨2, 3, none⟩] 4
      (by decide)).1 2 [0, 1] (by with_unfolding_all decide)

/-! ### Non-emptiness of every assigned speaker -/

lemma step_extract_eq (cd : Option (List String)) (st : RecState) (i : ℕ)
    (seg : Segment) (nm t1 : List Char)
    (h : extract (segText seg) = some (nm, t1)) :
    step cd st i seg =
      (⟨aliasUpdate st (defaultLabelAt cd i) ⟨nm⟩,
        (if (⟨nm⟩ : String) ∈ st.seen then st.seen else st.seen ++ [⟨nm⟩]),
        (if (⟨nm⟩ : String) ∈ st.seen then st.counter else st.counter + 1),
        some (if (⟨nm⟩ : String) = "" then
          resolveFalsy (aliasUpdate st (defaultLabelAt cd i) ⟨nm⟩) st
            (defaultLabelAt cd i) else ⟨nm⟩)⟩,
       ⟨(if (⟨nm⟩ : String) = "" then
          resolveFalsy (aliasUpdate st (defaultLabelAt cd i) ⟨nm⟩) st
            (defaultLabelAt cd i) else ⟨nm⟩),
        seg.start, seg.stop, some ⟨t1⟩⟩) := by
  simp only [step, h]

lemma step_noExtract_eq (cd : Option (List String)) (st : RecState) (i : ℕ)
    (seg : Segment) (h : extract (segText seg) = none) :
    step cd st i seg =
      (⟨st.aliasT, st.seen, st.counter,
        some (noExtractSp st (defaultLabelAt cd i))⟩,
       ⟨noExtractSp st (defaultLabelAt cd i), seg.start, seg.stop,
        some ⟨segText seg⟩⟩) := by
  simp only [step, h]

lemma ws_not_upper (c : Char) (h : isPyWs c = true) : isUpperAZ c = false := by
  unfold isPyWs at h
  simp only [Bool.or_eq_true, beq_iff_eq] at h
  rcases h with ((((rfl | rfl) | rfl) | rfl) | rfl) | rfl <;> decide

lemma upper_not_ws (c : Char) (h : isUpperAZ c = true) : isPyWs c = false := by
  cases hb : isPyWs c with
  | false => rfl
  | true =>
      rw [ws_not_upper c hb] at h
      simp at h

lemma dropWhile_concat_ne (p : Char → Bool) (c : Char) (h : p c = false) :
    ∀ xs : List Char, (xs ++ [c]).dropWhile p ≠ [] := by
  intro xs
  induction xs with
  | nil =>
      show ([c].dropWhile p) ≠ []
      rw [List.dropWhile_cons]
      rw [h]
      simp
  | cons x t ih =>
      show ((x :: (t ++ [c])).dropWhile p) ≠ []
      rw [List.dropWhile_cons]
      by_cases hx : p x = true
      · rw [hx]
        simpa using ih
      · rw [Bool.not_eq_true] at hx
        rw [hx]
        simp

lemma pyStripL_head_ne (c : Char) (l : List Char) (h : isPyWs c = false) :
    pyStripL (c :: l) ≠ [] := by
  unfold pyStripL
  rw [List.dropWhile_cons, h]
  intro h0
  rw [List.reverse_eq_nil_iff] at h0
  have h1 : (c :: l).reverse = l.reverse ++ [c] := by simp
  rw [show ((if false = true then List.dropWhile isPyWs l else c :: l)) = c :: l
    from by simp] at h0
  rw [h1] at h0
  exact dropWhile_concat_ne isPyWs c h l.reverse h0

lemma normWs_ne_nil (l : List Char) (h : l ≠ []) : normWs l ≠ [] := by
  cases l with
  | nil => exact absurd rfl h
  | cons c t =>
      unfold normWs normWsAux
      by_cases hc : isPyWs c = true
      · simp [hc]
      · rw [Bool.not_eq_true] at hc
        simp [hc]

/-- The head of a valid extracted-group capture is never whitespace. -/
def headNotWs (g : List Char) : Prop := ∃ c r, g = c :: r ∧ isPyWs c = false

lemma orElse_eq_some {α : Type} (a : Option α) (f : Unit → Option α) (g : α)
    (h : a.orElse f = some g) : a = some g ∨ (a = none ∧ f () = some g) := by
  cases a with
  | some x => exact Or.inl h
  | none => exact Or.inr ⟨rfl, h⟩

lemma alt1At_shape (t g : List Char) (h : alt1At t = some g) : headNotWs g := by
  unfold alt1At at h
  split at h
  · rename_i c r
    split at h
    · rename_i hc
      dsimp only at h
      split at h
      · split at h
        · exact ⟨c, _, (Option.some.inj h).symm, upper_not_ws c hc⟩
        · exact absurd h (by simp)
      · exact absurd h (by simp)
    · exact absurd h (by simp)
  · exact absurd h (by simp)

lemma alt2At_shape (t g : List Char) (h : alt2At t = some g) : headNotWs g := by
  unfold alt2At at h
  cases hp : stripPre "Speaker".toList t with
  | none =>
      rw [hp] at h
      have h2 : (none : Option (List Char)) = some g := h
      simp at h2
  | some t1 =>
      rw [hp] at h
      have h2 : (if 1 ≤ (t1.takeWhile isPyWs).length then
          (if 1 ≤ ((t1.drop (t1.takeWhile isPyWs).length).takeWhile isDigitC).length
            then
              (match (t1.drop (t1.takeWhile isPyWs).length).drop
                  ((t1.drop (t1.takeWhile isPyWs).length).takeWhile isDigitC).length with
                | ']' :: _ => some ("Speaker".toList ++ t1.takeWhile isPyWs ++
                    (t1.drop (t1.takeWhile isPyWs).length).takeWhile isDigitC)
                | _ => none)
            else none)
          else none) = some g := h
      split at h2
      · split at h2
        · split at h2
          · have hg : "Speaker".toList ++ t1.takeWhile isPyWs ++
                (t1.drop (t1.takeWhile isPyWs).length).takeWhile isDigitC = g :=
              Option.some.inj h2
            refine ⟨'S', "peaker".toList ++ t1.takeWhile isPyWs ++
              (t1.drop (t1.takeWhile isPyWs).length).takeWhile isDigitC, ?_, by decide⟩
            rw [← hg]
            rfl
          · exact absurd h2 (by simp)
        · exact absurd h2 (by simp)
      · exact absurd h2 (by simp)

lemma altsAt_shape (t g : List Char) (h : altsAt t = some g) : headNotWs g := by
  unfold altsAt at h
  rcases orElse_eq_some _ _ _ h with h1 | ⟨_, h2⟩
  · exact alt1At_shape t g h1
  · exact alt2At_shape t g h2

lemma speakerPrefixTry_shape (t1 : List Char) :
    ∀ (w : ℕ) (g : List Char), speakerPrefixTry t1 w = some g → headNotWs g := by
  intro w
  induction w with
  | zero => intro g h; simp [speakerPrefixTry] at h
  | succ w ih =>
      intro g h
      unfold speakerPrefixTry at h
      rcases orElse_eq_some _ _ _ h with h1 | ⟨_, h2⟩
      · exact altsAt_shape _ g h1
      · exact ih g h2

lemma bracketGroupAt_shape (l g : List Char) (h : bracketGroupAt l = some g) :
    headNotWs g := by
  unfold bracketGroupAt at h
  split at h
  · rename_i t
    cases hp : stripPre "Speaker".toList t with
    | some t2 =>
        rw [hp] at h
        have h2 : (speakerPrefixTry t2 (t2.takeWhile isPyWs).length).orElse
            (fun _ => altsAt t) = some g := h
        rcases orElse_eq_some _ _ _ h2 with h3 | ⟨_, h4⟩
        · exact speakerPrefixTry_shape t2 _ g h3
        · exact altsAt_shape t g h4
    | none =>
        rw [hp] at h
        have h2 : (Option.none.orElse (fun _ => altsAt t)) = some g := h
        rcases orElse_eq_some _ _ _ h2 with h3 | ⟨_, h4⟩
        · simp at h3
        · exact altsAt_shape t g h4
  · exact absurd h (by simp)

lemma bracketSearch_shape :
    ∀ (l g : List Char), bracketSearch l = some g → headNotWs g := by
  intro l
  induction l with
  | nil => intro g h; simp [bracketSearch] at h
  | cons c t ih =>
      intro g h
      unfold bracketSearch at h
      rcases orElse_eq_some _ _ _ h with h1 | ⟨_, h2⟩
      · exact bracketGroupAt_shape _ g h1
      · exact ih g h2

lemma pattern1_shape (l g1 g2 : List Char) (h : pattern1 l = some (g1, g2)) :
    ∃ c r, g1 = c :: r ∧ isUpperAZ c = true := by
  unfold pattern1 at h
  split at h
  · exact absurd h (by simp)
  · rename_i c rest
    split at h
    · rename_i hc
      try dsimp only at h
      split at h
      · split at h
        · try dsimp only at h
          split at h
          · split at h
            · have := Option.some.inj h
              exact ⟨c, _, (congrArg Prod.fst this).symm, hc⟩
            · exact absurd h (by simp)
          · exact absurd h (by simp)
        · exact absurd h (by simp)
      · exact absurd h (by simp)
    · exact absurd h (by simp)

lemma pattern3_shape (txt nm t1 : List Char) (h : pattern3 txt = some (nm, t1)) :
    2 < nm.length := by
  unfold pattern3 at h
  split at h
  · dsimp only at h
    split at h
    · rename_i hcond
      have heq := Option.some.inj h
      have hnm : pyStripL (txt.takeWhile (fun c => c != ':')) = nm :=
        congrArg Prod.fst heq
      simp only [Bool.and_eq_true, decide_eq_true_eq] at hcond
      rw [← hnm]
      exact hcond.1.1
    · exact absurd h (by simp)
  · exact absurd h (by simp)

lemma mk_ne_empty (nm : List Char) (h : nm ≠ []) : (⟨nm⟩ : String) ≠ "" := by
  intro h0
  apply h
  have h1 : (⟨nm⟩ : String).data = ("" : String).data := by rw [h0]
  simpa using h1

lemma extract_name_ne (txt nm t1 : List Char) (h : extract txt = some (nm, t1)) :
    nm ≠ [] := by
  unfold extract at h
  cases hp1 : pattern1 txt with
  | some g =>
      rw [hp1] at h
      obtain ⟨g1, g2⟩ := g
      have hnm : nm = normWs (pyStripL g1) :=
        (congrArg Prod.fst (Option.some.inj h)).symm
      obtain ⟨c, r, rfl, hc⟩ := pattern1_shape txt g1 g2 hp1
      rw [hnm]
      exact normWs_ne_nil _ (pyStripL_head_ne c r (upper_not_ws c hc))
  | none =>
      rw [hp1] at h
      cases hbs : bracketSearch txt with
      | some g =>
          rw [hbs] at h
          have hnm : nm = pyStripL g :=
            (congrArg Prod.fst (Option.some.inj h)).symm
          obtain ⟨c, r, rfl, hc⟩ := bracketSearch_shape txt g hbs
          rw [hnm]
          exact pyStripL_head_ne c r hc
      | none =>
          rw [hbs] at h
          have := pattern3_shape txt nm t1 h
          intro h0
          rw [h0] at this
          simp at this

lemma lastOr_ne (st : RecState) : lastOr st ≠ "" := by
  unfold lastOr
  cases st.lastSpeaker with
  | none => simp
  | some l =>
      by_cases he : l = ""
      · simp only [if_pos he]
        simp
      · simp only [if_neg he]
        exact he

lemma lookup_prop (P : String → Prop) :
    ∀ (l : List (String × String)), (∀ p ∈ l, P p.2) →
      ∀ {k v : String}, l.lookup k = some v → P v := by
  intro l
  induction l with
  | nil => intro _ k v h; simp [List.lookup] at h
  | cons p rest ih =>
      intro hl k v h
      obtain ⟨k2, v2⟩ := p
      rw [List.lookup_cons] at h
      split at h
      · exact (Option.some.inj h) ▸ hl (k2, v2) (List.mem_cons_self _ _)
      · exact ih (fun q hq => hl q (List.mem_cons_of_mem _ hq)) h

lemma resolveFalsy_ne (aliasNow : List (String × String)) (st : RecState)
    (dl : Option String) (ha : ∀ p ∈ aliasNow, p.2 ≠ "") :
    resolveFalsy aliasNow st dl ≠ "" := by
  unfold resolveFalsy
  cases dl with
  | none => exact lastOr_ne st
  | some d =>
      by_cases hd : d ≠ ""
      · simp only [if_pos hd]
        cases hl : aliasNow.lookup d with
        | none => exact hd
        | some a => exact lookup_prop (· ≠ "") aliasNow ha hl
      · simp only [if_neg hd]
        exact lastOr_ne st

lemma aliasUpdate_prop (st : RecState) (dl : Option String) (nmS : String)
    (ha : ∀ p ∈ st.aliasT, p.2 ≠ "") (hn : nmS ≠ "") :
    ∀ p ∈ aliasUpdate st dl nmS, p.2 ≠ "" := by
  unfold aliasUpdate
  cases dl with
  | none => exact ha
  | some d =>
      by_cases hd : d ≠ ""
      · simp only [if_pos hd]
        intro p hp
        rcases List.mem_cons.mp hp with rfl | hp
        · exact hn
        · exact ha p hp
      · simp only [if_neg hd]
        exact ha

lemma noExtractSp_ne (st : RecState) (dl : Option String)
    (ha : ∀ p ∈ st.aliasT, p.2 ≠ "") : noExtractSp st dl ≠ "" := by
  unfold noExtractSp provisionalSp
  cases dl with
  | none => exact resolveFalsy_ne _ _ _ ha
  | some d =>
      show (if ((st.aliasT.lookup d).getD d) = "" then
          resolveFalsy st.aliasT st (some d) else ((st.aliasT.lookup d).getD d)) ≠ ""
      by_cases he : ((st.aliasT.lookup d).getD d) = ""
      · simp only [if_pos he]
        exact resolveFalsy_ne _ _ _ ha
      · simp only [if_neg he]
        exact he

lemma step_speaker_ne (cd : Option (List String)) (st : RecState) (i : ℕ)
    (seg : Segment) (ha : ∀ p ∈ st.aliasT, p.2 ≠ "") :
    (step cd st i seg).2.speaker ≠ "" ∧
    ∀ p ∈ (step cd st i seg).1.aliasT, p.2 ≠ "" := by
  cases hx : extract (segText seg) with
  | some g =>
      obtain ⟨nm, t1⟩ := g
      have hnm : (⟨nm⟩ : String) ≠ "" := mk_ne_empty nm (extract_name_ne _ _ _ hx)
      rw [step_extract_eq cd st i seg nm t1 hx]
      constructor
      · show (if (⟨nm⟩ : String) = "" then _ else _) ≠ ""
        rw [if_neg hnm]
        exact hnm
      · exact aliasUpdate_prop st _ _ ha hnm
  | none =>
      rw [step_noExtract_eq cd st i seg hx]
      exact ⟨noExtractSp_ne st _ ha, ha⟩

lemma runAux_speaker_ne (cd : Option (List String)) :
    ∀ (segs : List Segment) (st : RecState) (i : ℕ),
      (∀ p ∈ st.aliasT, p.2 ≠ "") →
      ∀ a ∈ runAux cd st i segs, a.speaker ≠ "" := by
  intro segs
  induction segs with
  | nil => intro st i _ a hmem; simp [runAux] at hmem
  | cons seg rest ih =>
      intro st i ha a hmem
      rcases List.mem_cons.mp hmem with rfl | hmem
      · exact (step_speaker_ne cd st i seg ha).1
      · exact ih (step cd st i seg).1 (i + 1) (step_speaker_ne cd st i seg ha).2 a hmem

lemma clusterSegments_labels_ne (o : VoiceOracle) (segs : List Segment) (ms : ℕ)
    (ds : List String) (h : clusterSegments o segs ms = some ds) :
    ∀ s ∈ ds, s ≠ "" := by
  unfold clusterSegments at h
  cases hsel : selectK o segs ms with
  | none =>
      rw [hsel] at h
      have h2 : (none : Option (List String)) = some ds := h
      simp at h2
  | some kl =>
      rw [hsel] at h
      have h2 : some (buildDefaults segs.length (eligibleIndices o segs) kl.2) =
          some ds := h
      have hds : ds = buildDefaults segs.length (eligibleIndices o segs) kl.2 :=
        (Option.some.inj h2).symm
      subst hds
      unfold buildDefaults residualFill
      intro s hs
      rcases List.mem_map.mp hs with ⟨d, _, hd⟩
      cases d with
      | none => rw [← hd]; simp
      | some v =>
          by_cases hv : v = ""
          · rw [← hd]
            simp only [hv, if_pos rfl]
            simp
          · rw [← hd]
            simp only [if_neg hv]
            exact hv

/-- C9.  Every speaker assigned by `diarize_audio` is a non-empty string on
both paths (on the primary path this relies on the external diarizer's turn
labels being non-empty, which is part of its interface). -/
theorem speaker_nonempty (o : VoiceOracle) (pk : Bool) (turns : List Turn)
    (up : Bool) (segs : List Segment)
    (hturns : ∀ t ∈ turns, t.speaker ≠ "") :
    ∀ a ∈ diarizeAudio o pk turns up segs, a.speaker ≠ "" := by
  unfold diarizeAudio
  split
  · intro a hmem
    rcases List.mem_map.mp hmem with ⟨seg, _, rfl⟩
    show midAssign turns seg ≠ ""
    unfold midAssign
    dsimp only
    cases hf : turns.find?
        (fun t => decide (t.start ≤ (seg.start + seg.stop) / 2 ∧
          (seg.start + seg.stop) / 2 ≤ t.stop)) with
    | none =>
        show ("Speaker 1" : String) ≠ ""
        decide
    | some t => exact hturns t (List.mem_of_find?_eq_some hf)
  · intro a hmem
    have hcd : ∀ p ∈ (initState).aliasT, p.2 ≠ "" := by
      intro p hp
      simp [initState] at hp
    exact runAux_speaker_ne (clusterSegments o segs 4) segs initState 0 hcd a hmem

theorem speaker_nonempty_witness :
    ((diarizeAudio ⟨false, fun _ => true, fun _ => none, fun _ => none, none⟩
        true [] true [⟨0, 1, some "hello"⟩]).headD
      ⟨"Z", 0, 0, none⟩).speaker ≠ "" :=
  speaker_nonempty ⟨false, fun _ => true, fun _ => none, fun _ => none, none⟩
    true [] true [⟨0, 1, some "hello"⟩] (fun t ht => absurd ht (by simp)) _
    (by with_unfolding_all decide)

/-! ### AliasReconciler -/

lemma runAux_append (cd : Option (List String)) :
    ∀ (s1 s2 : List Segment) (st : RecState) (i : ℕ),
      runAux cd st i (s1 ++ s2) =
        runAux cd st i s1 ++
          runAux cd (stateAfter cd st i s1) (i + s1.length) s2 := by
  intro s1
  induction s1 with
  | nil => intro s2 st i; simp [runAux, stateAfter]
  | cons seg rest ih =>
      intro s2 st i
      show (step cd st i seg).2 :: runAux cd (step cd st i seg).1 (i + 1) (rest ++ s2) = _
      rw [ih s2 (step cd st i seg).1 (i + 1)]
      show _ = (step cd st i seg).2 :: runAux cd (step cd st i seg).1 (i + 1) rest ++
        runAux cd (stateAfter cd (step cd st i seg).1 (i + 1) rest)
          (i + (rest.length + 1)) s2
      have hidx : i + 1 + rest.length = i + (rest.length + 1) := by omega
      rw [hidx]
      rfl

lemma step_resolves_alias (cd : Option (List String)) (st : RecState) (i : ℕ)
    (seg : Segment) (d n : String) (hdl : defaultLabelAt cd i = some d)
    (hal : st.aliasT.lookup d = some n) (hne : n ≠ "")
    (hx : extract (segText seg) = none) :
    (step cd st i seg).2.speaker = n := by
  rw [step_noExtract_eq cd st i seg hx]
  show noExtractSp st (defaultLabelAt cd i) = n
  rw [hdl]
  unfold noExtractSp provisionalSp
  show (if ((st.aliasT.lookup d).getD d) = "" then
      resolveFalsy st.aliasT st (some d) else ((st.aliasT.lookup d).getD d)) = n
  rw [hal]
  show (if n = "" then resolveFalsy st.aliasT st (some d) else n) = n
  rw [if_neg hne]

lemma lookup_aliasUpdate_isSome (st : RecState) (dl : Option String)
    (nmS d : String) (h : (st.aliasT.lookup d).isSome = true) :
    ((aliasUpdate st dl nmS).lookup d).isSome = true := by
  unfold aliasUpdate
  cases dl with
  | none => exact h
  | some d2 =>
      by_cases hd2 : d2 ≠ ""
      · simp only [if_pos hd2]
        rw [List.lookup_cons]
        cases hbe : d == d2 with
        | true => rfl
        | false => exact h
      · simp only [if_neg hd2]
        exact h

lemma step_alias_mono (cd : Option (List String)) (st : RecState) (i : ℕ)
    (seg : Segment) (d : String) (h : (st.aliasT.lookup d).isSome = true) :
    (((step cd st i seg).1).aliasT.lookup d).isSome = true := by
  cases hx : extract (segText seg) with
  | some g =>
      obtain ⟨nm, t1⟩ := g
      rw [step_extract_eq cd st i seg nm t1 hx]
      exact lookup_aliasUpdate_isSome st _ _ d h
  | none =>
      rw [step_noExtract_eq cd st i seg hx]
      exact h

lemma stateAfter_alias_mono (cd : Option (List String)) :
    ∀ (segs : List Segment) (st : RecState) (i : ℕ) (d : String),
      (st.aliasT.lookup d).isSome = true →
      ((stateAfter cd st i segs).aliasT.lookup d).isSome = true := by
  intro segs
  induction segs with
  | nil => intro st i d h; exact h
  | cons seg rest ih =>
      intro st i d h
      exact ih _ _ d (step_alias_mono cd st i seg d h)

/-- C2 counterexample.  With one shared acoustic label, segment 0 sets the
alias to `"Alice"`; segment 2 is processed later, carries the same default
label and extracts no name, yet its final speaker is `"Bob"` (the alias was
overwritten by segment 1 in between), not `"Alice"`. -/
theorem alias_once_set_counterexample :
    (stateAfter (some ["Speaker 1", "Speaker 1", "Speaker 1"]) initState 0
        [⟨0, 1, some "Alice: hi"⟩]).aliasT.lookup "Speaker 1" = some "Alice" ∧
    defaultLabelAt (some ["Speaker 1", "Speaker 1", "Speaker 1"]) 2 =
      some "Speaker 1" ∧
    extract (segText ⟨2, 3, some "ok then"⟩) = none ∧
    ((fallbackRun (some ["Speaker 1", "Speaker 1", "Speaker 1"])
        [⟨0, 1, some "Alice: hi"⟩, ⟨1, 2, some "Bob: yo"⟩,
         ⟨2, 3, some "ok then"⟩])[2]?).map AttrSeg.speaker = some "Bob" ∧
    ("Bob" : String) ≠ "Alice" := by
  refine ⟨?_, ?_, ?_, ?_, ?_⟩ <;> with_unfolding_all decide

lemma runAux_cons_get0 (cd : Option (List String)) (st : RecState) (i : ℕ)
    (seg : Segment) (rest : List Segment) :
    (runAux cd st i (seg :: rest))[0]? = some ((step cd st i seg).2) := by
  simp [runAux]

/-- C2 (amended).  A segment with default label `d` and no extracted name is
assigned the alias of `d` that is current when the segment is processed (so
the originally set name exactly when no intervening segment overwrote it);
moreover alias entries persist: once a label has an alias it keeps one for
the rest of the pass. -/
theorem alias_current_value_resolution (cd : Option (List String)) (st : RecState)
    (i : ℕ) (pre : List Segment) (seg : Segment) (post : List Segment)
    (d n : String)
    (hal : (stateAfter cd st i pre).aliasT.lookup d = some n) (hne : n ≠ "")
    (hdl : defaultLabelAt cd (i + pre.length) = some d)
    (hx : extract (segText seg) = none) :
    ((runAux cd st i (pre ++ seg :: post))[pre.length]?).map AttrSeg.speaker =
      some n ∧
    (∀ (st2 : RecState) (i2 : ℕ) (segs2 : List Segment) (d2 : String),
        (st2.aliasT.lookup d2).isSome = true →
        ((stateAfter cd st2 i2 segs2).aliasT.lookup d2).isSome = true) := by
  constructor
  · rw [runAux_append cd pre (seg :: post) st i]
    rw [List.getElem?_append_right (by rw [runAux_length])]
    rw [runAux_length]
    simp only [Nat.sub_self]
    rw [runAux_cons_get0]
    rw [Option.map_some']
    rw [step_resolves_alias cd _ _ seg d n hdl hal hne hx]
  · exact fun st2 i2 segs2 d2 h => stateAfter_alias_mono cd segs2 st2 i2 d2 h

theorem alias_current_value_resolution_witness :
    ((runAux (some ["Speaker 1", "Speaker 1"]) initState 0
        ([⟨0, 1, some "Alice: hi"⟩] ++ ⟨1, 2, some "ok then"⟩ :: []))[1]?).map
      AttrSeg.speaker = some "Alice" := by
  have h := (alias_current_value_resolution (some ["Speaker 1", "Speaker 1"])
    initState 0 [⟨0, 1, some "Alice: hi"⟩] ⟨1, 2, some "ok then"⟩ [] "Speaker 1"
    "Alice" (by with_unfolding_all decide) (by decide) (by decide)
    (by decide)).1
  exact h

/-! ### Degradation behaviour of diarize_audio -/

/-- C4 counterexample.  With pyannote disabled (the primary try-block raises
`Exception("pyannote disabled")`), the operation does not degrade to the
uniform label `"Speaker 1"`: the fallback pipeline assigns the extracted
name `"Alice"`. -/
theorem diarize_degradation_counterexample :
    (diarizeAudio ⟨false, fun _ => true, fun _ => none, fun _ => none, none⟩ true []
        false [⟨0, 1, some "Alice: hi"⟩]).map AttrSeg.speaker = ["Alice"] ∧
    ("Alice" : String) ≠ "Speaker 1" := by
  refine ⟨?_, ?_⟩ <;> with_unfolding_all decide

/-- C4 (amended).  A failed or disabled primary path does not propagate: the
result is the heuristic fallback pipeline's output (not necessarily a uniform
`"Speaker 1"` labelling); input-level problems do not raise in the fallback:
an empty transcript yields an empty output and an unreadable audio source
merely disables acoustic clustering. -/
theorem diarize_fallback_degradation (o : VoiceOracle) (pk : Bool)
    (turns : List Turn) (up : Bool) (segs : List Segment) :
    (up = false ∨ pk = false →
        diarizeAudio o pk turns up segs =
          fallbackRun (clusterSegments o segs 4) segs) ∧
    (segs = [] → diarizeAudio o pk turns up segs = []) ∧
    (o.loadOk = false → clusterSegments o segs 4 = none) := by
  refine ⟨?_, ?_, ?_⟩
  · intro h
    unfold diarizeAudio
    rcases h with rfl | rfl
    · simp
    · simp
  · rintro rfl
    unfold diarizeAudio
    split
    · rfl
    · rfl
  · intro hl
    unfold clusterSegments
    have hsel : selectK o segs 4 = none := by
      unfold selectK
      rw [if_neg (by simp [hl])]
    rw [hsel]

theorem diarize_fallback_degradation_witness :
    diarizeAudio ⟨true, fun _ => true, fun _ => none, fun _ => none, none⟩ true []
      true [] = [] :=
  (diarize_fallback_degradation
    ⟨true, fun _ => true, fun _ => none, fun _ => none, none⟩ true [] true []).2.1
    rfl

/-- C8.  The bracket-token removal regex of pattern 2 drops the grouping
parentheses of the search regex, so its first alternative ends before the
closing bracket: on `"[Alice] hello"` the search extracts `"Alice"` but the
substitution deletes only `"[Alice"`, leaving `"] hello"` — not the
claimed `"hello"` with the whole bracket token removed. -/
theorem bracket_removal_bug :
    bracketSearch "[Alice] hello".toList = some "Alice".toList ∧
    bracketSub "[Alice] hello".toList = "] hello".toList ∧
    extract "[Alice] hello".toList = some ("Alice".toList, "] hello".toList) ∧
    ((fallbackRun none [⟨0, 1, some "[Alice] hello"⟩]).map AttrSeg.text =
      [some "] hello"]) ∧
    ("] hello" : String) ≠ "hello" := by
  refine ⟨?_, ?_, ?_, ?_, ?_⟩ <;> with_unfolding_all decide

/-! ### Characterisation of pattern 1 -/

lemma takeWhile_all_append (p : Char → Bool) :
    ∀ (s l : List Char), (∀ c ∈ s, p c = true) →
      (s ++ l).takeWhile p = s ++ l.takeWhile p := by
  intro s
  induction s with
  | nil => intro l _; rfl
  | cons x t ih =>
      intro l h
      show ((x :: (t ++ l)).takeWhile p) = x :: (t ++ l.takeWhile p)
      rw [List.takeWhile_cons, if_pos (h x (List.mem_cons_self _ _))]
      rw [ih l (fun c hc => h c (List.mem_cons_of_mem _ hc))]

lemma takeWhile_cons_false (p : Char → Bool) (x : Char) (l : List Char)
    (h : p x = false) : (x :: l).takeWhile p = [] := by
  rw [List.takeWhile_cons, h]
  simp

lemma drop_length_takeWhile (p : Char → Bool) :
    ∀ l : List Char, l.drop (l.takeWhile p).length = l.dropWhile p := by
  intro l
  induction l with
  | nil => rfl
  | cons x t ih =>
      rw [List.takeWhile_cons, List.dropWhile_cons]
      by_cases hx : p x = true
      · rw [if_pos hx, if_pos hx]
        simp only [List.length_cons, List.drop_succ_cons]
        exact ih
      · rw [if_neg hx, if_neg hx]
        rfl

lemma head?_dropWhile (p : Char → Bool) :
    ∀ (l : List Char) (a : Char), (l.dropWhile p).head? = some a → p a = false := by
  intro l
  induction l with
  | nil => intro a h; simp at h
  | cons x t ih =>
      intro a h
      rw [List.dropWhile_cons] at h
      by_cases hx : p x = true
      · rw [if_pos hx] at h
        exact ih a h
      · rw [if_neg hx] at h
        simp only [List.head?_cons, Option.some.injEq] at h
        rw [Bool.not_eq_true] at hx
        rw [← h]
        exact hx

lemma getLast?_mem2 {α : Type} : ∀ (l : List α) (a : α), l.getLast? = some a → a ∈ l := by
  intro l
  induction l with
  | nil => intro a h; simp at h
  | cons x t ih =>
      intro a h
      cases ht : t with
      | nil =>
          subst ht
          have : x = a := by simpa using h
          rw [this]
          exact List.mem_cons_self _ _
      | cons y t2 =>
          subst ht
          rw [List.getLast?_cons_cons] at h
          exact List.mem_cons_of_mem _ (ih a h)

/-- The raw pattern-1 regex, unfolded at a cons cell. -/
lemma pattern1_cons (c : Char) (rest : List Char) :
    pattern1 (c :: rest) =
      (if isUpperAZ c then
        let run := rest.takeWhile isNameChar
        if 1 ≤ run.length && run.length ≤ 30 then
          match rest.drop run.length with
          | ':' :: u =>
            let w := u.takeWhile isPyWs
            if 1 ≤ w.length then
              match dotStarDollar (u.drop w.length) with
              | some g2 => some (c :: run, g2)
              | none => none
            else none
          | _ => none
        else none
      else none) := rfl

/-- Evaluation of pattern 1 on an input already decomposed at its colon. -/
lemma pattern1_eval (c : Char) (s u : List Char) (hc : isUpperAZ c = true)
    (hs : ∀ x ∈ s, isNameChar x = true) (hs1 : 1 ≤ s.length)
    (hs30 : s.length ≤ 30) :
    pattern1 (c :: (s ++ ':' :: u)) =
      (let w := u.takeWhile isPyWs
       if 1 ≤ w.length then
         match dotStarDollar (u.drop w.length) with
         | some g2 => some (c :: s, g2)
         | none => none
       else none) := by
  rw [pattern1_cons, if_pos hc]
  dsimp only
  have hrun : (s ++ ':' :: u).takeWhile isNameChar = s := by
    rw [takeWhile_all_append isNameChar s (':' :: u) hs]
    rw [takeWhile_cons_false isNameChar ':' u (by decide)]
    simp
  rw [hrun]
  rw [if_pos (by simp [hs1, hs30] : (1 ≤ s.length && s.length ≤ 30) = true)]
  rw [List.drop_left]
  rfl

/-- The English-language reading of C7's match condition: the text begins
with a 1-to-30-character capitalised token of letters, dots, hyphens and
spaces, immediately followed by a colon and a space. -/
def pattern1ClaimPred (txt : List Char) : Prop :=
  ∃ s rest2, txt = s ++ ':' :: ' ' :: rest2 ∧ 1 ≤ s.length ∧ s.length ≤ 30 ∧
    (∃ c t, s = c :: t ∧ isUpperAZ c = true) ∧ (∀ x ∈ s, isNameChar x = true)

/-- C7 counterexample.  `"A: hi"` satisfies the claimed description (a
1-character capitalised token followed by a colon and a space), yet
pattern 1 does not match it: the regex requires the head capital letter plus
1 to 30 further class characters, so names have 2 to 31 characters. -/
theorem pattern1_claim_counterexample :
    pattern1ClaimPred "A: hi".toList ∧ pattern1 "A: hi".toList = none := by
  constructor
  · exact ⟨['A'], "hi".toList, by decide, by decide, by decide,
      ⟨'A', [], rfl, by decide⟩, by decide⟩
  · decide

/-- C7 (amended).  Pattern 1 matches exactly the texts of the form
`C s : w v` where `C` is an upper-case letter, `s` is a run of 1 to 30
characters from the class (letters, dots, hyphens, spaces) — so the whole
name has 2 to 31 characters — `w` is a non-empty maximal whitespace run (any
whitespace, not only a space), and `v`, the remainder, contains a newline at
most as its final character; group 1 is the name `C s` and group 2 is `v`
(with a single trailing newline excluded). -/
theorem pattern1_characterization (txt n r : List Char) :
    pattern1 txt = some (n, r) ↔
      ∃ (c : Char) (s w v : List Char),
        txt = c :: (s ++ ':' :: (w ++ v)) ∧
        isUpperAZ c = true ∧ (∀ x ∈ s, isNameChar x = true) ∧
        1 ≤ s.length ∧ s.length ≤ 30 ∧
        (∀ x ∈ w, isPyWs x = true) ∧ 1 ≤ w.length ∧
        (∀ x, v.head? = some x → isPyWs x = false) ∧
        n = c :: s ∧
        ((v.all (fun x => x != '\n') = true ∧ r = v) ∨
         (v.getLast? = some '\n' ∧ v.dropLast.all (fun x => x != '\n') = true ∧
          r = v.dropLast)) := by
  constructor
  · intro h
    unfold pattern1 at h
    split at h
    · exact absurd h (by simp)
    · rename_i c rest
      split at h
      · rename_i hc
        try dsimp only at h
        split at h
        · rename_i hlen
          split at h
          · rename_i u hdrop
            try dsimp only at h
            split at h
            · rename_i hwlen
              split at h
              · rename_i g2 hdot
                have hinj := Option.some.inj h
                have hn2 : n = c :: rest.takeWhile isNameChar :=
                  (congrArg Prod.fst hinj).symm
                have hr2 : r = g2 := (congrArg Prod.snd hinj).symm
                have hdw : rest.dropWhile isNameChar = ':' :: u := by
                  rw [← drop_length_takeWhile]
                  exact hdrop
                have hrest : rest = rest.takeWhile isNameChar ++ ':' :: u := by
                  conv_lhs => rw [← List.takeWhile_append_dropWhile isNameChar rest]
                  rw [hdw]
                have hudw : u.dropWhile isPyWs = u.drop (u.takeWhile isPyWs).length :=
                  (drop_length_takeWhile _ _).symm
                have hu : u = u.takeWhile isPyWs ++ u.drop (u.takeWhile isPyWs).length := by
                  conv_lhs => rw [← List.takeWhile_append_dropWhile isPyWs u]
                  rw [← hudw]
                simp only [Bool.and_eq_true, decide_eq_true_eq] at hlen
                refine ⟨c, rest.takeWhile isNameChar, u.takeWhile isPyWs,
                  u.drop (u.takeWhile isPyWs).length, ?_, hc,
                  fun x hx => List.mem_takeWhile_imp hx, hlen.1, hlen.2,
                  fun x hx => List.mem_takeWhile_imp hx, hwlen, ?_, hn2, ?_⟩
                · rw [← hu, ← hrest]
                · intro x hx
                  rw [← hudw] at hx
                  exact head?_dropWhile isPyWs u x hx
                · unfold dotStarDollar at hdot
                  split at hdot
                  · rename_i hall
                    exact Or.inl ⟨hall, hr2.trans (Option.some.inj hdot).symm⟩
                  · split at hdot
                    · rename_i hnall hcond
                      simp only [Bool.and_eq_true, beq_iff_eq] at hcond
                      exact Or.inr ⟨hcond.1, hcond.2,
                        hr2.trans (Option.some.inj hdot).symm⟩
                    · exact absurd hdot (by simp)
              · exact absurd h (by simp)
            · exact absurd h (by simp)
          · exact absurd h (by simp)
        · exact absurd h (by simp)
      · exact absurd h (by simp)
  · rintro ⟨c, s, w, v, htxt, hc, hs, hs1, hs30, hw, hw1, hv, hn, hdisj⟩
    subst htxt
    rw [pattern1_eval c s (w ++ v) hc hs hs1 hs30]
    dsimp only
    have hw2 : (w ++ v).takeWhile isPyWs = w := by
      rw [takeWhile_all_append isPyWs w v hw]
      cases hvv : v with
      | nil => simp
      | cons x t =>
          rw [takeWhile_cons_false isPyWs x t (hv x (by rw [hvv]; rfl))]
          simp
    rw [hw2]
    rw [if_pos hw1]
    rw [List.drop_left]
    rcases hdisj with ⟨hall, hr⟩ | ⟨hlast, hdl, hr⟩
    · have hd : dotStarDollar v = some v := by
        unfold dotStarDollar
        rw [if_pos hall]
      rw [hd, hn, hr]
    · have hfalse : v.all (fun x => x != '\n') = false := by
        cases hva : v.all (fun x => x != '\n') with
        | false => rfl
        | true =>
            have hmem := getLast?_mem2 v '\n' hlast
            have := List.all_eq_true.mp hva '\n' hmem
            simp at this
      have hd : dotStarDollar v = some v.dropLast := by
        unfold dotStarDollar
        rw [if_neg (by simp [hfalse])]
        rw [if_pos (by simp [hlast, hdl])]
      rw [hd, hn, hr]

theorem pattern1_characterization_witness :
    pattern1 "Alice: hi".toList = some ("Alice".toList, "hi".toList) :=
  (pattern1_characterization "Alice: hi".toList "Alice".toList "hi".toList).mpr
    ⟨'A', "lice".toList, [' '], "hi".toList, by decide, by decide, by decide,
     by decide, by decide, by decide, by decide,
     (by intro x hx; simp at hx; rw [← hx]; decide), by decide,
     Or.inl ⟨by decide, rfl⟩⟩

end MMA
